import Mathlib

/-!
Verification of the word-tokenization library (src/tokenizer.js,
src/languages/thai.js, src/utils/stemmer.js).

Modelling conventions:
* JavaScript strings are modelled as lists of Unicode code points
  (List Char); tokens are such lists.
* The JavaScript Set of dictionary words is modelled as a list of words
  in insertion order (a Set iterates in insertion order and holds no
  duplicates; none of the statements below depend on duplicate freedom).
* The while-loop of dictionaryTokenize is modelled with an explicit
  fuel parameter; the theorem dict_loop_fuel_invariant shows that fuel
  equal to the length of the remaining text already suffices, which is
  exactly the termination argument for the source loop.
* Values that can be null or undefined are modelled with Option.
-/

/-- Convenience: the list of code points of a string literal. -/
def toL (s : String) : List Char := s.data

/-- Test for membership of the JavaScript WhiteSpace / LineTerminator set,
the set of code points removed by String.prototype.trim. -/
def isJsWhitespace (c : Char) : Bool :=
  c.toNat = 0x9 || c.toNat = 0xA || c.toNat = 0xB || c.toNat = 0xC ||
  c.toNat = 0xD || c.toNat = 0x20 || c.toNat = 0xA0 || c.toNat = 0x1680 ||
  (0x2000 ≤ c.toNat && c.toNat ≤ 0x200A) || c.toNat = 0x2028 ||
  c.toNat = 0x2029 || c.toNat = 0x202F || c.toNat = 0x205F ||
  c.toNat = 0x3000 || c.toNat = 0xFEFF

/-- Thai block test, the regex [฀-๿] of simpleTokenize. -/
def isThaiChar (c : Char) : Bool :=
  0x0E00 ≤ c.toNat && c.toNat ≤ 0x0E7F

/-- Thai vowel test, the regex [ะ-ฺเ-ๅ] of simpleTokenize. -/
def isThaiVowel (c : Char) : Bool :=
  (0x0E30 ≤ c.toNat && c.toNat ≤ 0x0E3A) || (0x0E40 ≤ c.toNat && c.toNat ≤ 0x0E45)

/-- Thai tone-mark test, the regex [็-๎] of simpleTokenize. -/
def isThaiToneMark (c : Char) : Bool :=
  0x0E47 ≤ c.toNat && c.toNat ≤ 0x0E4E

/-- Loop body of simpleTokenize (src/languages/thai.js): the first
argument is the text still to be scanned, the second the pending token
currentToken.  The lookahead text[i+1] of the source is the head of the
remaining list. -/
def simpleAux : List Char → List Char → List (List Char)
  | [], cur => if cur = [] then [] else [cur]
  | c :: rest, cur =>
    if c = ' ' ∨ ¬ isThaiChar c then
      -- boundary: flush the pending token, then emit the character
      -- itself when char.trim() is non-empty, i.e. when it is not
      -- JavaScript whitespace
      (if cur = [] then [] else [cur]) ++
        (if isJsWhitespace c then [] else [[c]]) ++ simpleAux rest []
    else
      -- Thai character: extend the pending token, then close it when the
      -- current character is neither a vowel nor a tone mark and the next
      -- character is a vowel
      if !isThaiVowel c && !isThaiToneMark c &&
          (match rest.head? with | some d => isThaiVowel d | none => false) then
        (cur ++ [c]) :: simpleAux rest []
      else
        simpleAux rest (cur ++ [c])

/-- Heuristic character-based segmenter simpleTokenize of
src/languages/thai.js. -/
def simpleTokenize (text : List Char) : List (List Char) :=
  simpleAux text []

/-- JavaScript remaining.startsWith(word): the second argument read as a
prefix of the first. -/
def startsWith : List Char → List Char → Bool
  | _, [] => true
  | [], _ :: _ => false
  | c :: cs, d :: ds => if c = d then startsWith cs ds else false

/-- Body of the for-of scan of dictionaryTokenize over the dictionary: the
accumulator is the pair (found, longestWord). -/
def scanStep (remaining : List Char) (acc : Bool × List Char) (word : List Char) :
    Bool × List Char :=
  if startsWith remaining word ∧ acc.2.length < word.length then (true, word) else acc

/-- One full scan of the dictionary from the current position, returning
the pair (found, longestWord) of dictionaryTokenize. -/
def scanDict (remaining : List Char) (dict : List (List Char)) : Bool × List Char :=
  dict.foldl (scanStep remaining) (false, [])

/-- Trailing whitespace skip of dictionaryTokenize: drop leading plain
ASCII spaces of the remaining text. -/
def skipSpaces : List Char → List Char
  | [] => []
  | c :: rest => if c = ' ' then skipSpaces rest else c :: rest

/-- While-loop of dictionaryTokenize, with explicit fuel.  Each iteration
scans the dictionary for the longest matching prefix, emits it (or the
single next character when nothing matches), and skips spaces. -/
def dictLoop (dict : List (List Char)) : Nat → List Char → List (List Char)
  | 0, _ => []
  | _ + 1, [] => []
  | fuel + 1, c :: rest =>
    let p := scanDict (c :: rest) dict
    if p.1 then
      p.2 :: dictLoop dict fuel (skipSpaces (List.drop p.2.length (c :: rest)))
    else
      [c] :: dictLoop dict fuel (skipSpaces rest)

/-- Function dictionaryTokenize of src/languages/thai.js.  The dictionary
argument is Option-valued: none models a null dictionary, some []
models a Set of size 0; both fall back to simpleTokenize.  The loop gets
fuel equal to the length of the text, which suffices by
dict_loop_fuel_invariant. -/
def dictionaryTokenize (text : List Char) (dict : Option (List (List Char))) :
    List (List Char) :=
  if text = [] then []
  else
    match dict with
    | none => simpleTokenize text
    | some d => if d = [] then simpleTokenize text else dictLoop d text.length text

example : dictionaryTokenize (toL "abcd") (some [toL "a", toL "ab", toL "abc"]) =
    [toL "abc", toL "d"] := by decide

example : simpleTokenize (toL "ab") = [toL "a", toL "b"] := by decide

example : dictionaryTokenize (toL "a bc") (some [toL "bc"]) = [toL "a", toL "bc"] := by
  decide

/-- ASCII restriction of String.prototype.toLowerCase, applied code point
by code point. -/
def jsToLowerChar (c : Char) : Char :=
  if 0x41 ≤ c.toNat ∧ c.toNat ≤ 0x5A then Char.ofNat (c.toNat + 0x20) else c

/-- Lowercase fold of a whole token, token.toLowerCase() of the source. -/
def jsToLower (t : List Char) : List Char := t.map jsToLowerChar

/-- Vowel test of the stemmer, the regex [aeiou]. -/
def isVowelChar (c : Char) : Bool :=
  c = 'a' || c = 'e' || c = 'i' || c = 'o' || c = 'u'

/-- Test whether some character of the word is a vowel. -/
def hasVowel (w : List Char) : Bool := w.any isVowelChar

/-- JavaScript w.endsWith(s). -/
def endsWithL (w s : List Char) : Bool := startsWith w.reverse s.reverse

/-- Simplified Porter stemmer stemToken of src/utils/stemmer.js.  The
slices word.slice(0, -k) of the source are List.take (length - k); the
character reads word[length - 1] and word[length - 2] are guarded by the
length test of the source, so the getD default is never consulted. -/
def stemToken (token : List Char) : List Char :=
  if token = [] then []
  else
    let word0 := jsToLower token
    -- Step 1a
    let word1 :=
      if endsWithL word0 (toL "sses") then List.take (word0.length - 2) word0
      else if endsWithL word0 (toL "ies") then List.take (word0.length - 2) word0
      else if endsWithL word0 (toL "ss") then word0
      else if endsWithL word0 (toL "s") then List.take (word0.length - 1) word0
      else word0
    -- Step 1b
    let word2 :=
      if endsWithL word1 (toL "eed") then List.take (word1.length - 1) word1
      else if (endsWithL word1 (toL "ed") && hasVowel (List.take (word1.length - 2) word1)) ||
          (endsWithL word1 (toL "ing") && hasVowel (List.take (word1.length - 3) word1)) then
        let w := if endsWithL word1 (toL "ed") then List.take (word1.length - 2) word1
          else List.take (word1.length - 3) word1
        if endsWithL w (toL "at") || endsWithL w (toL "bl") || endsWithL w (toL "iz") then
          w ++ toL "e"
        else if 2 < w.length ∧ w.getD (w.length - 1) ' ' = w.getD (w.length - 2) ' ' ∧
            ¬ (w.getD (w.length - 1) ' ' = 'l' ∨ w.getD (w.length - 1) ' ' = 's' ∨
              w.getD (w.length - 1) ' ' = 'z') then
          List.take (w.length - 1) w
        else w
      else word1
    -- Step 1c
    if endsWithL word2 (toL "y") ∧ 2 < word2.length ∧
        isVowelChar (word2.getD (word2.length - 2) ' ') = false then
      List.take (word2.length - 1) word2 ++ toL "i"
    else word2

example : stemToken (toL "running") = toL "run" := by decide

example : stemToken (toL "cats") = toL "cat" := by decide

example : stemToken (toL "happy") = toL "happi" := by decide

/-- Unicode general category L membership as consumed by the p-L escape of
the universal pattern, restricted to the script ranges exercised in this
development: ASCII Latin letters and the letters of the Thai block. -/
def isUnicodeLetter (c : Char) : Bool :=
  (0x41 ≤ c.toNat && c.toNat ≤ 0x5A) || (0x61 ≤ c.toNat && c.toNat ≤ 0x7A) ||
  (0x0E01 ≤ c.toNat && c.toNat ≤ 0x0E30) || c.toNat = 0x0E32 || c.toNat = 0x0E33 ||
  (0x0E40 ≤ c.toNat && c.toNat ≤ 0x0E46)

/-- Unicode general category M membership as consumed by the p-M escape,
restricted in the same way: the combining marks of the Thai block. -/
def isUnicodeMark (c : Char) : Bool :=
  c.toNat = 0x0E31 || (0x0E34 ≤ c.toNat && c.toNat ≤ 0x0E3A) ||
  (0x0E47 ≤ c.toNat && c.toNat ≤ 0x0E4E)

/-- Unicode general category N membership as consumed by the p-N escape,
restricted in the same way: ASCII digits and Thai digits. -/
def isUnicodeNumber (c : Char) : Bool :=
  (0x30 ≤ c.toNat && c.toNat ≤ 0x39) || (0x0E50 ≤ c.toNat && c.toNat ≤ 0x0E59)

/-- Scanner state of the universal matcher.  The global matchAll scan of
the pattern (letters with embedded marks, or digits) is a left-to-right
pass: state letters carries the letter token matched so far together with
the pending run of marks not yet followed by a letter (a trailing mark
run is not part of a match, since the group needs a closing letter);
state digits carries a digit run. -/
inductive UniState where
  | idle : UniState
  | letters : List Char → List Char → UniState
  | digits : List Char → UniState

/-- One pass of the universal matcher over the text.  This is the
deterministic reading of the scan of text.matchAll with the pattern
letter+ (mark* letter+)* or digit+: a match starts at the earliest
letter or digit, greedy repetition absorbs mark runs only when a letter
follows, and scanning resumes right after each match. -/
def uniAux : List Char → UniState → List (List Char)
  | [], UniState.idle => []
  | [], UniState.letters cur _ => [cur]
  | [], UniState.digits cur => [cur]
  | c :: rest, UniState.idle =>
    if isUnicodeLetter c then uniAux rest (UniState.letters [c] [])
    else if isUnicodeNumber c then uniAux rest (UniState.digits [c])
    else uniAux rest UniState.idle
  | c :: rest, UniState.letters cur pend =>
    if isUnicodeLetter c then uniAux rest (UniState.letters (cur ++ pend ++ [c]) [])
    else if isUnicodeMark c then uniAux rest (UniState.letters cur (pend ++ [c]))
    else if isUnicodeNumber c then cur :: uniAux rest (UniState.digits [c])
    else cur :: uniAux rest UniState.idle
  | c :: rest, UniState.digits cur =>
    if isUnicodeNumber c then uniAux rest (UniState.digits (cur ++ [c]))
    else if isUnicodeLetter c then cur :: uniAux rest (UniState.letters [c] [])
    else cur :: uniAux rest UniState.idle

/-- Universal regex tokenization branch of Tokenizer.tokenize:
Array.from(text.matchAll(universalWordPattern), m entry 0). -/
def universalTokenize (text : List Char) : List (List Char) :=
  uniAux text UniState.idle

example : universalTokenize (toL "the cat sat") = [toL "the", toL "cat", toL "sat"] := by
  decide

example : universalTokenize (toL "abc123") = [toL "abc", toL "123"] := by decide

example : universalTokenize (toL "ab") = [toL "ab"] := by decide

/-- A JavaScript value as passed to the public entry points: the text
argument of tokenize is dynamically typed. -/
inductive JsVal where
  | undef : JsVal
  | nullV : JsVal
  | boolV : Bool → JsVal
  | numV : Int → JsVal
  | str : List Char → JsVal
  | obj : JsVal

/-- Guard condition of the entry points: the input passes the check
(not (!text || typeof text !== "string")) exactly when it is a non-empty
string. -/
def isNonEmptyString : JsVal → Bool
  | JsVal.str s => !s.isEmpty
  | _ => false

/-- Configuration and per-instance state of a Tokenizer: the options
record built by the constructor together with the stopword set built by
setupStopwords (base English list, optional language file, custom
entries; the construction itself is file input and out of scope, the
claims quantify over the resulting set). -/
structure Config where
  lowercase : Bool
  removeStopwords : Bool
  stemming : Bool
  language : List Char
  thaiDictionary : Option (List (List Char))
  stopwords : List (List Char)

/-- Branch selection of Tokenizer.tokenize: the dictionary path is taken
exactly when the language is th and options.thaiDictionary is truthy (a
Set object, even empty, is truthy; null is falsy). -/
def rawTokenize (cfg : Config) (text : List Char) : List (List Char) :=
  if cfg.language = toL "th" ∧ cfg.thaiDictionary.isSome then
    dictionaryTokenize text cfg.thaiDictionary
  else
    universalTokenize text

/-- Lowercase stage of Tokenizer.tokenize: applied when options.lowercase
is set and the language is not th. -/
def lowercaseStage (cfg : Config) (tokens : List (List Char)) : List (List Char) :=
  if cfg.lowercase ∧ ¬ cfg.language = toL "th" then tokens.map jsToLower else tokens

/-- Stopword filter of Tokenizer.tokenize: keep the tokens whose lowercase
form is not in the stopword set. -/
def stopwordRemove (sw : List (List Char)) (tokens : List (List Char)) :
    List (List Char) :=
  tokens.filter (fun t => !(sw.contains (jsToLower t)))

/-- Stopword stage of Tokenizer.tokenize: the filter runs only when
options.removeStopwords is set. -/
def stopwordStage (cfg : Config) (tokens : List (List Char)) : List (List Char) :=
  if cfg.removeStopwords then stopwordRemove cfg.stopwords tokens else tokens

/-- The fixed whitelist of stemmable language codes of Tokenizer.tokenize. -/
def stemmableLanguages : List (List Char) :=
  [toL "en", toL "es", toL "fr", toL "it", toL "pt", toL "de", toL "nl"]

/-- Stemming stage of Tokenizer.tokenize: applied when options.stemming is
set and the language is in the whitelist. -/
def stemStage (cfg : Config) (tokens : List (List Char)) : List (List Char) :=
  if cfg.stemming ∧ stemmableLanguages.contains cfg.language then
    tokens.map stemToken
  else tokens

/-- Tokenizer.tokenize on a string that passed the input guard: raw
segmentation followed by the three pipeline stages in source order. -/
def tokenizeChars (cfg : Config) (text : List Char) : List (List Char) :=
  stemStage cfg (stopwordStage cfg (lowercaseStage cfg (rawTokenize cfg text)))

/-- Public Tokenizer.tokenize, including the input guard on the
dynamically typed argument. -/
def tokenize (cfg : Config) : JsVal → List (List Char)
  | JsVal.str s => if s = [] then [] else tokenizeChars cfg s
  | _ => []

/-- Join of a window of tokens with a single space,
tokens.slice(i, i + n).join(" "). -/
def joinSpace (ts : List (List Char)) : List Char :=
  List.intercalate (toL " ") ts

/-- Public Tokenizer.ngramTokenize.  The n argument is a JavaScript
number, modelled as Int so the guard n < 1 is meaningful.  After the
guard, the for loop runs for i = 0 .. tokens.length - n exactly when
n <= tokens.length, which is the range of length tokens.length + 1 - n
(truncated subtraction). -/
def ngramTokenize (cfg : Config) (input : JsVal) (n : Int) : List (List Char) :=
  match input with
  | JsVal.str s =>
    if s = [] ∨ n < 1 then []
    else
      let tokens := tokenize cfg (JsVal.str s)
      (List.range (tokens.length + 1 - n.toNat)).map
        (fun i => joinSpace (List.take n.toNat (List.drop i tokens)))
  | _ => []

/-- A value stored in (or read from) the frequency object.  Besides the
ordinary integer counts, reading a missing key of a plain object literal
can yield an inherited member of Object.prototype (a function, or the
prototype itself for the key given by protoKey); such a value is truthy
and not a number, and value + 1 on it is a string, again truthy and not
a number.  All those non-number values are collapsed into tainted: the
exact text is engine specific and never needed below. -/
inductive FreqVal where
  | num : Nat → FreqVal
  | tainted : FreqVal
deriving DecidableEq

/-- The dunder proto property name. -/
def protoKey : List Char := toL "__proto__"

/-- Property names inherited from Object.prototype by a plain object
literal, readable although not own properties. -/
def objectProtoKeys : List (List Char) :=
  [toL "constructor", toL "hasOwnProperty", toL "isPrototypeOf",
    toL "propertyIsEnumerable", toL "toLocaleString", toL "toString",
    toL "valueOf", toL "__defineGetter__", toL "__defineSetter__",
    toL "__lookupGetter__", toL "__lookupSetter__", protoKey]

/-- Own-property read of the frequency object, in insertion order. -/
def ownGet : List (List Char × FreqVal) → List Char → Option FreqVal
  | [], _ => none
  | (k, v) :: rest, t => if k = t then some v else ownGet rest t

/-- Full property read frequency[token]: an own property if present,
otherwise the inherited Object.prototype member for the listed names,
otherwise undefined. -/
def protoGet (m : List (List Char × FreqVal)) (t : List Char) : Option FreqVal :=
  match ownGet m t with
  | some v => some v
  | none => if objectProtoKeys.contains t then some FreqVal.tainted else none

/-- The update value (frequency[token] || 0) + 1: undefined or 0 gives 1,
a positive count n gives n + 1, and a truthy non-number (an inherited
prototype member, or a string produced from one) stays a truthy
non-number. -/
def bumpVal : Option FreqVal → FreqVal
  | none => FreqVal.num 1
  | some (FreqVal.num 0) => FreqVal.num 1
  | some (FreqVal.num (n + 1)) => FreqVal.num (n + 2)
  | some FreqVal.tainted => FreqVal.tainted

/-- Property write frequency[token] = v: an ordinary own-property update
or append, except that assigning a primitive through the inherited
dunder proto setter is silently ignored. -/
def objSet (m : List (List Char × FreqVal)) (t : List Char) (v : FreqVal) :
    List (List Char × FreqVal) :=
  if t = protoKey then m else objSetOwn m t v
where
  /-- Update the first entry with the given key, or append a new one. -/
  objSetOwn : List (List Char × FreqVal) → List Char → FreqVal →
      List (List Char × FreqVal)
    | [], t, v => [(t, v)]
    | (k, w) :: rest, t, v =>
      if k = t then (k, v) :: rest else (k, w) :: objSetOwn rest t v

/-- Public Tokenizer.getTokenFrequency: fold the token list of tokenize
over the empty object literal. -/
def getTokenFrequency (cfg : Config) (input : JsVal) : List (List Char × FreqVal) :=
  (tokenize cfg input).foldl (fun m t => objSet m t (bumpVal (protoGet m t))) []

/-- Occurrence count of a token in a token list. -/
def countTok (t : List Char) : List (List Char) → Nat
  | [] => 0
  | u :: us => (if u = t then 1 else 0) + countTok t us

/-- Default configuration of the constructor with no options: language en,
lowercase on, stopword removal and stemming off, no dictionary; the
stopword set content is irrelevant to the statements using this value. -/
def defaultConfig : Config :=
  { lowercase := true, removeStopwords := false, stemming := false,
    language := toL "en", thaiDictionary := none, stopwords := [] }

example : tokenize defaultConfig (JsVal.str (toL "The cat sat")) =
    [toL "the", toL "cat", toL "sat"] := by decide

example : getTokenFrequency defaultConfig (JsVal.str (toL "the cat the")) =
    [(toL "the", FreqVal.num 2), (toL "cat", FreqVal.num 1)] := by decide

example : getTokenFrequency defaultConfig (JsVal.str (toL "constructor")) =
    [(toL "constructor", FreqVal.tainted)] := by decide

example : ngramTokenize defaultConfig (JsVal.str (toL "a b c")) 2 =
    [toL "a b", toL "b c"] := by decide

/-- One scan step never shortens the recorded longest word. -/
theorem scanStep_snd_le (r : List Char) (acc : Bool × List Char) (w : List Char) :
    acc.2.length ≤ (scanStep r acc w).2.length := by
  unfold scanStep
  split
  · rename_i h
    exact Nat.le_of_lt h.2
  · exact Nat.le_refl _

/-- Folding further scan steps never shortens the recorded longest word. -/
theorem scan_foldl_ge (r : List Char) (dict : List (List Char)) :
    ∀ acc : Bool × List Char, acc.2.length ≤ (dict.foldl (scanStep r) acc).2.length := by
  induction dict with
  | nil => intro acc; simp
  | cons w ws ih =>
    intro acc
    simpa using Nat.le_trans (scanStep_snd_le r acc w) (ih (scanStep r acc w))

/-- Any dictionary entry that is a prefix of the remaining text bounds the
recorded longest word from below after the scan. -/
theorem scan_foldl_max (r : List Char) (dict : List (List Char)) :
    ∀ (acc : Bool × List Char) (w : List Char), w ∈ dict → startsWith r w = true →
      w.length ≤ (dict.foldl (scanStep r) acc).2.length := by
  induction dict with
  | nil => intro acc w h; exact absurd h (List.not_mem_nil w)
  | cons u us ih =>
    intro acc w hmem hpre
    rcases List.mem_cons.mp hmem with h | h
    · subst h
      have h1 : w.length ≤ (scanStep r acc w).2.length := by
        unfold scanStep
        split
        · exact Nat.le_refl _
        · rename_i hc
          rcases Nat.lt_or_ge acc.2.length w.length with hlt | hge
          · exact absurd ⟨hpre, hlt⟩ hc
          · exact hge
      simpa using Nat.le_trans h1 (scan_foldl_ge r us (scanStep r acc w))
    · simpa using ih (scanStep r acc u) w h hpre

/-- The found flag can only be set with a non-empty longest word. -/
theorem scan_foldl_found (r : List Char) (dict : List (List Char)) :
    ∀ acc : Bool × List Char, (acc.1 = true → 1 ≤ acc.2.length) →
      ((dict.foldl (scanStep r) acc).1 = true →
        1 ≤ (dict.foldl (scanStep r) acc).2.length) := by
  induction dict with
  | nil => intro acc h; simpa using h
  | cons u us ih =>
    intro acc h
    simp only [List.foldl_cons]
    apply ih
    unfold scanStep
    split
    · rename_i hc
      intro _
      exact Nat.lt_of_le_of_lt (Nat.zero_le _) hc.2
    · exact h

/-- The recorded longest word is either a dictionary entry or the initial
accumulator value. -/
theorem scan_foldl_mem (r : List Char) (dict : List (List Char)) :
    ∀ acc : Bool × List Char,
      (dict.foldl (scanStep r) acc).2 ∈ dict ∨ (dict.foldl (scanStep r) acc).2 = acc.2 := by
  induction dict with
  | nil => intro acc; simp
  | cons u us ih =>
    intro acc
    simp only [List.foldl_cons]
    rcases ih (scanStep r acc u) with h | h
    · exact Or.inl (List.mem_cons_of_mem u h)
    · rw [h]
      unfold scanStep
      split
      · exact Or.inl (List.mem_cons_self u us)
      · exact Or.inr rfl

/-- The recorded longest word is a prefix of the remaining text, or is the
initial accumulator value. -/
theorem scan_foldl_pre (r : List Char) (dict : List (List Char)) :
    ∀ acc : Bool × List Char, startsWith r acc.2 = true →
      startsWith r (dict.foldl (scanStep r) acc).2 = true := by
  induction dict with
  | nil => intro acc h; simpa using h
  | cons u us ih =>
    intro acc h
    simp only [List.foldl_cons]
    apply ih
    unfold scanStep
    split
    · rename_i hc
      exact hc.1
    · exact h

/-- A successful dictionary scan selects a word of positive length. -/
theorem scanDict_found_pos (r : List Char) (dict : List (List Char)) :
    (scanDict r dict).1 = true → 1 ≤ (scanDict r dict).2.length :=
  scan_foldl_found r dict (false, []) (by intro h; cases h)

/-- Every word starts with the empty word. -/
theorem startsWith_nil : ∀ r : List Char, startsWith r [] = true := by
  intro r
  cases r <;> rfl

/-- The word selected by a dictionary scan is a dictionary entry, or the
scan selected nothing. -/
theorem scanDict_mem (r : List Char) (dict : List (List Char)) :
    (scanDict r dict).2 ∈ dict ∨ (scanDict r dict).2 = [] :=
  scan_foldl_mem r dict (false, [])

/-- The word selected by a dictionary scan is a prefix of the remaining
text. -/
theorem scanDict_pre (r : List Char) (dict : List (List Char)) :
    startsWith r (scanDict r dict).2 = true :=
  scan_foldl_pre r dict (false, []) (startsWith_nil r)

/-- skipSpaces never lengthens the text. -/
theorem skipSpaces_length_le : ∀ l : List Char, (skipSpaces l).length ≤ l.length := by
  intro l
  induction l with
  | nil => simp [skipSpaces]
  | cons c rest ih =>
    unfold skipSpaces
    split
    · exact Nat.le_trans ih (Nat.le_succ _)
    · exact Nat.le_refl _

/-- The loop of dictionaryTokenize computes the same token list under any
two sufficient fuels: with fuel at least the length of the remaining
text the loop always runs to empty remaining text, because every
iteration consumes at least one character (a selected match has positive
length, the no-match branch consumes exactly one character, and the
space skip only consumes more). -/
theorem dictLoop_fuel_eq (dict : List (List Char)) :
    ∀ (f1 f2 : Nat) (r : List Char), r.length ≤ f1 → r.length ≤ f2 →
      dictLoop dict f1 r = dictLoop dict f2 r := by
  intro f1
  induction f1 with
  | zero =>
    intro f2 r h1 _
    have hr : r = [] := List.eq_nil_of_length_eq_zero (Nat.le_zero.mp h1)
    subst hr
    cases f2 <;> rfl
  | succ f1 ih =>
    intro f2 r h1 h2
    cases r with
    | nil => cases f2 <;> rfl
    | cons c rest =>
      cases f2 with
      | zero => simp at h2
      | succ f2 =>
        simp only [dictLoop]
        by_cases hp : (scanDict (c :: rest) dict).1 = true
        · simp only [hp, if_true]
          have hlen : 1 ≤ (scanDict (c :: rest) dict).2.length :=
            scanDict_found_pos (c :: rest) dict hp
          have hdrop :
              (skipSpaces (List.drop (scanDict (c :: rest) dict).2.length
                (c :: rest))).length ≤ rest.length := by
            refine Nat.le_trans (skipSpaces_length_le _) ?_
            rw [List.length_drop]
            simp only [List.length_cons]
            omega
          have e := ih f2 (skipSpaces (List.drop (scanDict (c :: rest) dict).2.length
            (c :: rest)))
            (by
              refine Nat.le_trans hdrop ?_
              simp only [List.length_cons] at h1
              omega)
            (by
              refine Nat.le_trans hdrop ?_
              simp only [List.length_cons] at h2
              omega)
          rw [e]
        · have hskip : (skipSpaces rest).length ≤ rest.length := skipSpaces_length_le rest
          have e := ih f2 (skipSpaces rest)
            (by simp only [List.length_cons] at h1; omega)
            (by simp only [List.length_cons] at h2; omega)
          simp [hp, e]

/-- Claim C3: dictionaryTokenize terminates on every text and every
dictionary, the empty-string entry included: fuel equal to the length of
the remaining text always completes the loop, since only entries of
positive length can be selected as longest match and the no-match branch
consumes exactly one character, so each iteration consumes at least one
character and the loop reaches empty remaining text within length many
iterations. -/
theorem dict_loop_fuel_invariant :
    ∀ (dict : List (List Char)) (fuel : Nat) (r : List Char), r.length ≤ fuel →
      dictLoop dict fuel r = dictLoop dict r.length r :=
  fun dict fuel r h => dictLoop_fuel_eq dict fuel r.length r h (Nat.le_refl _)

/-- Witness for dict_loop_fuel_invariant, at a dictionary containing the
empty string. -/
theorem dict_loop_fuel_invariant_witness :
    dictLoop [[]] 7 (toL "abc") = dictLoop [[]] (toL "abc").length (toL "abc") :=
  dict_loop_fuel_invariant [[]] 7 (toL "abc") (by decide)

/-- Claim C2: on the dictionary a, ab, abc and the input abcd the
segmentation is exactly the longest prefix abc followed by the leftover
character d; in general the word selected by a dictionary scan is at
least as long as every dictionary entry that prefixes the remaining
text, and a successful scan selects a dictionary entry that prefixes the
remaining text. -/
theorem dictionary_longest_match :
    dictionaryTokenize (toL "abcd") (some [toL "a", toL "ab", toL "abc"]) =
      [toL "abc", toL "d"] ∧
    ∀ (dict : List (List Char)) (r w : List Char), w ∈ dict → startsWith r w = true →
      w.length ≤ (scanDict r dict).2.length ∧
      ((scanDict r dict).1 = true →
        (scanDict r dict).2 ∈ dict ∧ startsWith r (scanDict r dict).2 = true) := by
  refine ⟨by decide, ?_⟩
  intro dict r w hmem hpre
  refine ⟨scan_foldl_max r dict (false, []) w hmem hpre, ?_⟩
  intro hfound
  have hpos : 1 ≤ (scanDict r dict).2.length := scanDict_found_pos r dict hfound
  refine ⟨?_, scanDict_pre r dict⟩
  rcases scanDict_mem r dict with h | h
  · exact h
  · rw [h] at hpos
    simp at hpos

/-- Witness for dictionary_longest_match. -/
theorem dictionary_longest_match_witness :
    (toL "a").length ≤ (scanDict (toL "abx") [toL "a", toL "ab"]).2.length ∧
    ((scanDict (toL "abx") [toL "a", toL "ab"]).1 = true →
      (scanDict (toL "abx") [toL "a", toL "ab"]).2 ∈ [toL "a", toL "ab"] ∧
      startsWith (toL "abx") (scanDict (toL "abx") [toL "a", toL "ab"]).2 = true) :=
  dictionary_longest_match.2 [toL "a", toL "ab"] (toL "abx") (toL "a")
    (by decide) (by decide)

/-- Claim C7: stem maps running to run, and a second application of the
stemmer leaves that result unchanged. -/
theorem stem_running_idempotent :
    stemToken (toL "running") = toL "run" ∧
    stemToken (stemToken (toL "running")) = stemToken (toL "running") := by
  decide

/-- Claim C9: every entry point returns an empty result on an input that
is not a non-empty string (empty string, null, undefined, boolean,
number, object), under every configuration; in the model all entry
points are total functions, so no error can be raised. -/
theorem invalid_input_yields_empty :
    ∀ (cfg : Config) (input : JsVal) (n : Int), isNonEmptyString input = false →
      tokenize cfg input = [] ∧ ngramTokenize cfg input n = [] ∧
      getTokenFrequency cfg input = [] := by
  intro cfg input n h
  cases input with
  | str s =>
    have hs : s = [] := by
      simp [isNonEmptyString] at h
      exact h
    subst hs
    refine ⟨rfl, by simp [ngramTokenize], rfl⟩
  | undef => exact ⟨rfl, rfl, rfl⟩
  | nullV => exact ⟨rfl, rfl, rfl⟩
  | boolV b => exact ⟨rfl, rfl, rfl⟩
  | numV i => exact ⟨rfl, rfl, rfl⟩
  | obj => exact ⟨rfl, rfl, rfl⟩

/-- Witness for invalid_input_yields_empty at the null input. -/
theorem invalid_input_yields_empty_witness :
    tokenize defaultConfig JsVal.nullV = [] ∧
    ngramTokenize defaultConfig JsVal.nullV 3 = [] ∧
    getTokenFrequency defaultConfig JsVal.nullV = [] :=
  invalid_input_yields_empty defaultConfig JsVal.nullV 3 rfl

/-- Claim C1 counterexample: a Tokenizer with language th and an absent
(null) dictionary takes the universal-regex branch, not the heuristic
segmenter: on the Latin input ab it produces the single token ab,
whereas simpleTokenize splits this input into the two tokens a and b. -/
theorem thai_null_dictionary_uses_universal_matcher :
    tokenize
      { lowercase := true, removeStopwords := false, stemming := false,
        language := toL "th", thaiDictionary := none, stopwords := [] }
      (JsVal.str (toL "ab")) = [toL "ab"] ∧
    simpleTokenize (toL "ab") = [toL "a", toL "b"] ∧
    ¬ tokenize
      { lowercase := true, removeStopwords := false, stemming := false,
        language := toL "th", thaiDictionary := none, stopwords := [] }
      (JsVal.str (toL "ab")) = [toL "a", toL "b"] := by
  refine ⟨by decide, by decide, by decide⟩

/-- Claim C1 amended: for language th the raw segmentation uses the
heuristic segmenter exactly when the dictionary is present but empty
(size 0); an absent (null) dictionary selects the universal regex
matcher; a non-empty dictionary is consulted in longest-match mode. -/
theorem thai_branch_selection :
    ∀ (cfg : Config) (text : List Char), cfg.language = toL "th" →
      (cfg.thaiDictionary = some [] → rawTokenize cfg text = simpleTokenize text) ∧
      (cfg.thaiDictionary = none → rawTokenize cfg text = universalTokenize text) ∧
      (∀ d, cfg.thaiDictionary = some d → ¬ d = [] →
        rawTokenize cfg text = dictLoop d text.length text) := by
  intro cfg text hlang
  refine ⟨?_, ?_, ?_⟩
  · intro hd
    rw [rawTokenize, if_pos ⟨hlang, by rw [hd]; rfl⟩, hd]
    by_cases ht : text = []
    · subst ht
      rfl
    · simp [dictionaryTokenize, ht]
  · intro hd
    rw [rawTokenize, if_neg]
    intro hc
    rw [hd] at hc
    exact absurd hc.2 (by decide)
  · intro d hd hdne
    rw [rawTokenize, if_pos ⟨hlang, by rw [hd]; rfl⟩, hd]
    by_cases ht : text = []
    · subst ht
      rfl
    · simp [dictionaryTokenize, ht, hdne]

/-- Witness for thai_branch_selection, exercising all three dictionary
shapes. -/
theorem thai_branch_selection_witness :
    rawTokenize
      { lowercase := true, removeStopwords := false, stemming := false,
        language := toL "th", thaiDictionary := some [], stopwords := [] }
      (toL "ab") = simpleTokenize (toL "ab") ∧
    rawTokenize
      { lowercase := true, removeStopwords := false, stemming := false,
        language := toL "th", thaiDictionary := none, stopwords := [] }
      (toL "ab") = universalTokenize (toL "ab") ∧
    rawTokenize
      { lowercase := true, removeStopwords := false, stemming := false,
        language := toL "th", thaiDictionary := some [toL "ab"], stopwords := [] }
      (toL "ab") = dictLoop [toL "ab"] (toL "ab").length (toL "ab") :=
  ⟨(thai_branch_selection _ (toL "ab") rfl).1 rfl,
    (thai_branch_selection _ (toL "ab") rfl).2.1 rfl,
    (thai_branch_selection _ (toL "ab") rfl).2.2 [toL "ab"] rfl (by decide)⟩

/-- Claim C6: with stemming enabled the stemming stage maps every token
through the stemmer exactly when the language is in the fixed whitelist
en, es, fr, it, pt, de, nl; th is not in the whitelist; and for any
language outside the whitelist the whole tokenization is identical to
the one with stemming disabled, so tokens pass through the stemming
stage unchanged. -/
theorem stemming_whitelist_only :
    (∀ (cfg : Config) (ts : List (List Char)), cfg.stemming = true →
      (stemmableLanguages.contains cfg.language = true →
        stemStage cfg ts = ts.map stemToken) ∧
      (stemmableLanguages.contains cfg.language = false → stemStage cfg ts = ts)) ∧
    stemmableLanguages.contains (toL "th") = false ∧
    (∀ (cfg : Config) (input : JsVal), stemmableLanguages.contains cfg.language = false →
      tokenize cfg input = tokenize { cfg with stemming := false } input) := by
  refine ⟨?_, by decide, ?_⟩
  · intro cfg ts hstem
    constructor
    · intro hin
      rw [stemStage, if_pos ⟨hstem, hin⟩]
    · intro hout
      rw [stemStage, if_neg]
      intro hc
      rw [hout] at hc
      exact absurd hc.2 (by decide)
  · intro cfg input hout
    cases input with
    | str s =>
      by_cases hs : s = []
      · subst hs
        rfl
      · show tokenize cfg (JsVal.str s) = _
        have hstage : ∀ ts, stemStage cfg ts = stemStage { cfg with stemming := false } ts := by
          intro ts
          rw [stemStage, stemStage]
          rw [if_neg, if_neg]
          · intro hc
            exact absurd hc.1 (by simp)
          · intro hc
            rw [hout] at hc
            exact absurd hc.2 (by decide)
        simp only [tokenize, tokenizeChars, hs, if_neg]
        rw [hstage]
        rfl
    | undef => rfl
    | nullV => rfl
    | boolV b => rfl
    | numV i => rfl
    | obj => rfl

/-- Witness for stemming_whitelist_only: stemming applies for en and is
the identity for th. -/
theorem stemming_whitelist_only_witness :
    stemStage
      { lowercase := true, removeStopwords := false, stemming := true,
        language := toL "en", thaiDictionary := none, stopwords := [] }
      [toL "running"] = [toL "running"].map stemToken ∧
    stemStage
      { lowercase := true, removeStopwords := false, stemming := true,
        language := toL "th", thaiDictionary := none, stopwords := [] }
      [toL "running"] = [toL "running"] ∧
    tokenize
      { lowercase := true, removeStopwords := false, stemming := true,
        language := toL "th", thaiDictionary := none, stopwords := [] }
      (JsVal.str (toL "running")) =
    tokenize
      { lowercase := true, removeStopwords := false, stemming := false,
        language := toL "th", thaiDictionary := none, stopwords := [] }
      (JsVal.str (toL "running")) :=
  ⟨(stemming_whitelist_only.1 _ [toL "running"] rfl).1 (by decide),
    (stemming_whitelist_only.1 _ [toL "running"] rfl).2 (by decide),
    stemming_whitelist_only.2.2 _ (JsVal.str (toL "running")) (by decide)⟩

/-- Claim C5: the stopword filter returns a subsequence of its input in
the original relative order, containing exactly the tokens whose
lowercase form is not in the stopword set; moreover with removal enabled
every token surviving the stopword stage of the pipeline has a lowercase
form outside the stopword set, whatever the lowercase option is. -/
theorem stopword_removal_pure_filter :
    (∀ (sw ts : List (List Char)), List.Sublist (stopwordRemove sw ts) ts ∧
      ∀ t, t ∈ stopwordRemove sw ts ↔ t ∈ ts ∧ sw.contains (jsToLower t) = false) ∧
    ∀ (cfg : Config) (text : List Char), cfg.removeStopwords = true →
      ∀ t, t ∈ stopwordStage cfg (lowercaseStage cfg (rawTokenize cfg text)) →
        cfg.stopwords.contains (jsToLower t) = false := by
  have hmain : ∀ (sw ts : List (List Char)), List.Sublist (stopwordRemove sw ts) ts ∧
      ∀ t, t ∈ stopwordRemove sw ts ↔ t ∈ ts ∧ sw.contains (jsToLower t) = false := by
    intro sw ts
    constructor
    · exact List.filter_sublist ts
    · intro t
      rw [stopwordRemove, List.mem_filter]
      simp
  refine ⟨hmain, ?_⟩
  intro cfg text hrs t ht
  rw [stopwordStage, if_pos hrs] at ht
  exact (((hmain cfg.stopwords (lowercaseStage cfg (rawTokenize cfg text))).2 t).mp ht).2

/-- Witness for stopword_removal_pure_filter: with folding disabled the
token The is still removed by lowercase comparison and cat survives. -/
theorem stopword_removal_pure_filter_witness :
    List.contains [toL "the"] (jsToLower (toL "cat")) = false :=
  stopword_removal_pure_filter.2
    { lowercase := false, removeStopwords := true, stemming := false,
      language := toL "en", thaiDictionary := none, stopwords := [toL "the"] }
    (toL "The cat") rfl (toL "cat") (by decide)

/-- Claim C8: with 1 <= n <= L, where L is the length of the token list
of the input, ngramTokenize produces exactly L - n + 1 entries; with
n > L it produces the empty list; and the entry at index i is the join
by one space of the window of n tokens starting at token i, so the
windows appear in left-to-right order. -/
theorem ngram_window_count :
    ∀ (cfg : Config) (s : List Char) (n : Int), 1 ≤ n →
      ((n.toNat ≤ (tokenize cfg (JsVal.str s)).length →
        (ngramTokenize cfg (JsVal.str s) n).length =
          (tokenize cfg (JsVal.str s)).length - n.toNat + 1) ∧
      ((tokenize cfg (JsVal.str s)).length < n.toNat →
        ngramTokenize cfg (JsVal.str s) n = []) ∧
      (∀ i, i < (ngramTokenize cfg (JsVal.str s) n).length →
        (ngramTokenize cfg (JsVal.str s) n)[i]? =
          some (joinSpace (List.take n.toNat (List.drop i (tokenize cfg (JsVal.str s))))))) := by
  intro cfg s n hn
  have hn1 : 1 ≤ n.toNat := by omega
  by_cases hs : s = []
  · subst hs
    have htok : tokenize cfg (JsVal.str []) = [] := rfl
    have hng : ngramTokenize cfg (JsVal.str []) n = [] := by
      simp [ngramTokenize]
    refine ⟨?_, fun _ => hng, ?_⟩
    · intro hle
      rw [htok] at hle
      simp at hle
      omega
    · intro i hi
      rw [hng] at hi
      simp at hi
  · have hng : ngramTokenize cfg (JsVal.str s) n =
        (List.range ((tokenize cfg (JsVal.str s)).length + 1 - n.toNat)).map
          (fun i => joinSpace (List.take n.toNat (List.drop i (tokenize cfg (JsVal.str s))))) := by
      rw [ngramTokenize]
      rw [if_neg]
      rintro (h | h)
      · exact hs h
      · omega
    refine ⟨?_, ?_, ?_⟩
    · intro hle
      rw [hng, List.length_map, List.length_range]
      omega
    · intro hlt
      rw [hng]
      have h0 : (tokenize cfg (JsVal.str s)).length + 1 - n.toNat = 0 := by omega
      rw [h0]
      rfl
    · intro i hi
      rw [hng] at hi ⊢
      rw [List.length_map, List.length_range] at hi
      rw [List.getElem?_map, List.getElem?_range hi]
      rfl

/-- Witness for ngram_window_count on three tokens and n = 2. -/
theorem ngram_window_count_witness :
    (ngramTokenize defaultConfig (JsVal.str (toL "a b c")) 2).length =
      (tokenize defaultConfig (JsVal.str (toL "a b c"))).length - (2 : Int).toNat + 1 ∧
    (ngramTokenize defaultConfig (JsVal.str (toL "a b c")) 2)[0]? =
      some (joinSpace (List.take (2 : Int).toNat
        (List.drop 0 (tokenize defaultConfig (JsVal.str (toL "a b c")))))) :=
  ⟨(ngram_window_count defaultConfig (toL "a b c") 2 (by decide)).1 (by decide),
    (ngram_window_count defaultConfig (toL "a b c") 2 (by decide)).2.2 0 (by decide)⟩

/-- A Thai-block code point is never JavaScript whitespace. -/
theorem thai_not_whitespace (c : Char) (h : isThaiChar c = true) :
    isJsWhitespace c = false := by
  simp only [isThaiChar, Bool.and_eq_true, decide_eq_true_eq] at h
  simp only [isJsWhitespace]
  simp only [Bool.or_eq_false_iff, Bool.and_eq_false_iff, decide_eq_false_iff_not,
    decide_eq_true_eq, not_le]
  omega

/-- Invariant of the simpleTokenize loop: with a whitespace-free pending
token, the concatenation of all emitted tokens is the pending token
followed by the non-whitespace characters of the remaining text, and
every emitted token is whitespace-free. -/
theorem simpleAux_spec : ∀ (text cur : List Char),
    (∀ c, c ∈ cur → isJsWhitespace c = false) →
    ((simpleAux text cur).flatten = cur ++ text.filter (fun c => !isJsWhitespace c) ∧
      ∀ t, t ∈ simpleAux text cur → ∀ c, c ∈ t → isJsWhitespace c = false) := by
  intro text
  induction text with
  | nil =>
    intro cur hcur
    constructor
    · by_cases h : cur = [] <;> simp [simpleAux, h]
    · intro t ht c hc
      by_cases h : cur = []
      · rw [h] at ht
        simp [simpleAux] at ht
      · simp only [simpleAux, if_neg h] at ht
        simp at ht
        rw [ht] at hc
        exact hcur c hc
  | cons a rest ih =>
    intro cur hcur
    have hrecE := ih [] (by intro c hc; simp at hc)
    by_cases hb : a = ' ' ∨ ¬ isThaiChar a
    · constructor
      · simp only [simpleAux, if_pos hb]
        rw [List.flatten_append, List.flatten_append, hrecE.1]
        by_cases hw : isJsWhitespace a = true
        · by_cases h : cur = [] <;> simp [h, hw, List.filter_cons]
        · rw [Bool.not_eq_true] at hw
          by_cases h : cur = [] <;> simp [h, hw, List.filter_cons]
      · intro t ht c hc
        simp only [simpleAux, if_pos hb] at ht
        rcases List.mem_append.mp ht with h1 | h2
        · rcases List.mem_append.mp h1 with hA | hB
          · by_cases h : cur = []
            · rw [if_pos h] at hA
              simp at hA
            · rw [if_neg h] at hA
              simp at hA
              rw [hA] at hc
              exact hcur c hc
          · by_cases hw : isJsWhitespace a = true
            · rw [if_pos hw] at hB
              simp at hB
            · rw [Bool.not_eq_true] at hw
              rw [if_neg (by simp [hw])] at hB
              simp at hB
              rw [hB] at hc
              simp at hc
              rw [hc]
              exact hw
        · exact hrecE.2 t h2 c hc
    · have hthai : isThaiChar a = true := by
        by_contra h
        exact hb (Or.inr h)
      have hws : isJsWhitespace a = false := thai_not_whitespace a hthai
      have hcur2 : ∀ c, c ∈ cur ++ [a] → isJsWhitespace c = false := by
        intro c hc
        rcases List.mem_append.mp hc with h | h
        · exact hcur c h
        · simp at h
          rw [h]
          exact hws
      constructor
      · simp only [simpleAux, if_neg hb]
        by_cases hcond : (!isThaiVowel a && !isThaiToneMark a &&
            (match rest.head? with | some d => isThaiVowel d | none => false)) = true
        · rw [if_pos hcond]
          rw [List.flatten_cons, hrecE.1]
          simp [List.filter_cons, hws]
        · rw [if_neg hcond]
          rw [(ih (cur ++ [a]) hcur2).1]
          simp [List.filter_cons, hws]
      · intro t ht c hc
        simp only [simpleAux, if_neg hb] at ht
        by_cases hcond : (!isThaiVowel a && !isThaiToneMark a &&
            (match rest.head? with | some d => isThaiVowel d | none => false)) = true
        · rw [if_pos hcond] at ht
          rcases List.mem_cons.mp ht with h | h
          · rw [h] at hc
            exact hcur2 c hc
          · exact hrecE.2 t h c hc
        · rw [if_neg hcond] at ht
          exact (ih (cur ++ [a]) hcur2).2 t ht c hc

/-- Claim C10: concatenating the tokens of simpleTokenize in output order
reproduces the input with exactly its whitespace characters removed (so
every non-whitespace character appears exactly once, in original order),
and no emitted token contains a whitespace character. -/
theorem simple_tokenize_whitespace_partition :
    ∀ text : List Char,
      (simpleTokenize text).flatten = text.filter (fun c => !isJsWhitespace c) ∧
      ∀ t, t ∈ simpleTokenize text → ∀ c, c ∈ t → isJsWhitespace c = false := by
  intro text
  have h := simpleAux_spec text [] (by intro c hc; simp at hc)
  simpa [simpleTokenize] using h

/-- Witness for simple_tokenize_whitespace_partition on a mixed input. -/
theorem simple_tokenize_whitespace_partition_witness :
    (simpleTokenize (toL "ab c")).flatten =
      (toL "ab c").filter (fun c => !isJsWhitespace c) ∧
    isJsWhitespace 'a' = false :=
  ⟨(simple_tokenize_whitespace_partition (toL "ab c")).1,
    (simple_tokenize_whitespace_partition (toL "ab c")).2 (toL "a") (by decide)
      'a' (by decide)⟩

/-- Reading after an own-property write: the written key now holds the
written value, every other key is unchanged. -/
theorem ownGet_objSetOwn :
    ∀ (m : List (List Char × FreqVal)) (k : List Char) (v : FreqVal) (t : List Char),
      ownGet (objSet.objSetOwn m k v) t = if k = t then some v else ownGet m t := by
  intro m k v
  induction m with
  | nil => intro t; rfl
  | cons p rest ih =>
    intro t
    obtain ⟨k2, w⟩ := p
    simp only [objSet.objSetOwn]
    by_cases h1 : k2 = k
    · subst h1
      rw [if_pos rfl]
      simp only [ownGet]
      by_cases h2 : k2 = t
      · rw [if_pos h2, if_pos h2]
      · simp [h2]
    · rw [if_neg h1]
      simp only [ownGet]
      by_cases h2 : k2 = t
      · rw [if_pos h2, if_neg (fun h => h1 (h2.trans h.symm)), if_pos h2]
      · rw [if_neg h2, ih t]
        by_cases h3 : k = t
        · rw [if_pos h3, if_pos h3]
        · rw [if_neg h3, if_neg h3, if_neg h2]

/-- For a key that is not an Object.prototype property name, the full
property read is the own-property read. -/
theorem protoGet_eq_ownGet (m : List (List Char × FreqVal)) (t : List Char)
    (h : objectProtoKeys.contains t = false) : protoGet m t = ownGet m t := by
  cases hog : ownGet m t with
  | some v => simp [protoGet, hog]
  | none =>
    simp only [protoGet, hog, h]
    simp

/-- A key that is not an Object.prototype property name is not the dunder
proto key. -/
theorem not_protoKey_of_not_contains (t : List Char)
    (h : objectProtoKeys.contains t = false) : ¬ t = protoKey := by
  intro he
  rw [he] at h
  exact absurd h (by decide)

/-- The update value on an ordinary count is the successor count. -/
theorem bumpVal_num : ∀ j : Nat, bumpVal (some (FreqVal.num j)) = FreqVal.num (j + 1) := by
  intro j
  cases j <;> rfl

/-- Frequency-fold invariant: folding a list of tokens none of which is an
Object.prototype property name adds the occurrence count of each key to
its entry (creating the entry at its count if absent, and leaving a
corrupted entry corrupted). -/
theorem freq_fold_spec :
    ∀ (ts : List (List Char)) (m : List (List Char × FreqVal)) (t : List Char),
      (∀ u, u ∈ ts → objectProtoKeys.contains u = false) →
      ownGet (ts.foldl (fun m u => objSet m u (bumpVal (protoGet m u))) m) t =
        (match ownGet m t with
         | some (FreqVal.num j) => some (FreqVal.num (j + countTok t ts))
         | some FreqVal.tainted => some FreqVal.tainted
         | none =>
           if countTok t ts = 0 then none else some (FreqVal.num (countTok t ts))) := by
  intro ts
  induction ts with
  | nil =>
    intro m t _
    simp only [List.foldl_nil, countTok]
    cases hog : ownGet m t with
    | none => simp
    | some v => cases v <;> simp
  | cons u us ih =>
    intro m t hall
    have hu : objectProtoKeys.contains u = false := hall u (List.mem_cons_self u us)
    have hus : ∀ x, x ∈ us → objectProtoKeys.contains x = false :=
      fun x hx => hall x (List.mem_cons_of_mem u hx)
    simp only [List.foldl_cons]
    rw [ih _ t hus]
    have hne : ¬ u = protoKey := not_protoKey_of_not_contains u hu
    rw [objSet, if_neg hne, ownGet_objSetOwn, protoGet_eq_ownGet m u hu]
    by_cases het : u = t
    · subst het
      rw [if_pos rfl]
      have hcount : countTok u (u :: us) = countTok u us + 1 := by
        simp [countTok, Nat.add_comm]
      rw [hcount]
      cases hog : ownGet m u with
      | none =>
        simp only [bumpVal]
        simp [Nat.add_comm]
      | some v =>
        cases v with
        | num j =>
          rw [bumpVal_num]
          simp only [Option.some_inj, FreqVal.num.injEq]
          omega
        | tainted => rfl
    · rw [if_neg het]
      simp only [countTok, if_neg het, Nat.zero_add]

/-- Claim C4 counterexample: the single-token input constructor collides
with the inherited Object.prototype member, so its entry in the
frequency map is the corrupted non-integer value although the token
occurs exactly once; in particular the entry is not the count 1. -/
theorem constructor_token_corrupts_frequency :
    getTokenFrequency defaultConfig (JsVal.str (toL "constructor")) =
      [(toL "constructor", FreqVal.tainted)] ∧
    countTok (toL "constructor")
      (tokenize defaultConfig (JsVal.str (toL "constructor"))) = 1 ∧
    ¬ FreqVal.tainted = FreqVal.num 1 := by
  refine ⟨by decide, by decide, by decide⟩

/-- Claim C4 amended: provided no produced token is an Object.prototype
property name, getTokenFrequency maps each distinct token of the
post-pipeline sequence to exactly its occurrence count (hence an integer
at least 1) and holds no other own entry. -/
theorem token_frequency_exact_counts :
    ∀ (cfg : Config) (input : JsVal) (t : List Char),
      (tokenize cfg input).all (fun u => !objectProtoKeys.contains u) = true →
      ownGet (getTokenFrequency cfg input) t =
        (if countTok t (tokenize cfg input) = 0 then none
         else some (FreqVal.num (countTok t (tokenize cfg input)))) := by
  intro cfg input t hall
  have h : ∀ u, u ∈ tokenize cfg input → objectProtoKeys.contains u = false := by
    intro u hu
    have h2 := List.all_eq_true.mp hall u hu
    simpa using h2
  rw [getTokenFrequency, freq_fold_spec (tokenize cfg input) [] t h]
  rfl

/-- Witness for token_frequency_exact_counts: the token the occurs twice. -/
theorem token_frequency_exact_counts_witness :
    ownGet (getTokenFrequency defaultConfig (JsVal.str (toL "the cat the")))
        (toL "the") =
      (if countTok (toL "the")
          (tokenize defaultConfig (JsVal.str (toL "the cat the"))) = 0 then none
       else some (FreqVal.num (countTok (toL "the")
          (tokenize defaultConfig (JsVal.str (toL "the cat the")))))) :=
  token_frequency_exact_counts defaultConfig (JsVal.str (toL "the cat the"))
    (toL "the") (by decide)
